import Mathlib

/-!
Verification development for the ngx-api-forms error-bridging pipeline.

The definitions below are a shallow embedding of the library's core:

* a JavaScript value model (payloads are already-deserialized JSON-like data);
* association lists with JavaScript object / Map update semantics
  (in-place replacement of an existing key, append otherwise);
* the Angular control tree (FormGroup / FormArray / FormControl) restricted
  to the state this library reads and writes: the error map, the touched
  flag, and the output the control's own validators currently produce
  (used to model setErrors(null) followed by updateValueAndValidity());
* the FormBridge operations from
  src/projects/ngx-api-forms/src/lib/form-bridge/form-bridge.ts
  (the revision with FormArray support and pending-error accumulation):
  _resolveNestedControl, _resolveErrorKey, _resolveMessage, _applyErrors,
  applyApiErrors, clearApiErrors, _resolvePresetConstraintMap and the
  constructor's constraint-map merge;
* the class-validator preset from
  src/projects/ngx-api-forms/src/lib/presets/class-validator.preset.ts
  (flattenErrors, parseStringMessage, classValidatorPreset) and the four
  built-in constraint maps;
* parseApiErrors from src/projects/ngx-api-forms/src/lib/utils/form-utils.ts.
-/

namespace NgxApiForms

/-- JavaScript runtime values, as far as this library inspects them. -/
inductive JsValue where
  | null : JsValue
  | undef : JsValue
  | str : String → JsValue
  | num : Int → JsValue
  | boolV : Bool → JsValue
  | arr : List JsValue → JsValue
  | obj : List (String × JsValue) → JsValue

/-- Association-list lookup of the first binding of a key (JS property read). -/
def alistGet {α β : Type} [DecidableEq α] : List (α × β) → α → Option β
  | [], _ => none
  | (k, v) :: rest, key => if k = key then some v else alistGet rest key

/-- JS object-spread / Map.set update: replace the binding of an existing
key in place, append a fresh key at the end (JS object keys are unique,
so replacing the first binding is replacing the binding). -/
def alistSet {α β : Type} [DecidableEq α] : List (α × β) → α → β → List (α × β)
  | [], k, v => [(k, v)]
  | (a, b) :: rest, k, v =>
    if a = k then (k, v) :: rest else (a, b) :: alistSet rest k v

/-- Object.assign: fold the update entries into the base map. -/
def objAssign {α β : Type} [DecidableEq α] (base upd : List (α × β)) :
    List (α × β) :=
  upd.foldl (fun acc p => alistSet acc p.1 p.2) base

/-- x === null. -/
def jsIsNull : JsValue → Bool
  | .null => true
  | _ => false

/-- typeof x === 'object' (null and arrays included). -/
def jsTypeofObject : JsValue → Bool
  | .null => true
  | .arr _ => true
  | .obj _ => true
  | _ => false

/-- JS truthiness. -/
def jsTruthy : JsValue → Bool
  | .null => false
  | .undef => false
  | .str s => s ≠ ""
  | .num n => n ≠ 0
  | .boolV b => b
  | .arr _ => true
  | .obj _ => true

/-- Property read: x[k], undefined (none) for non-objects. -/
def jsGet : JsValue → String → Option JsValue
  | .obj fs, k => alistGet fs k
  | _, _ => none

/-- The JS "in" operator restricted to plain objects (false elsewhere;
the library only reaches it on object-shaped values). -/
def jsHasProp : JsValue → String → Bool
  | .obj fs, k => (alistGet fs k).isSome
  | _, _ => false

/-- JS string coercion of a value, as produced by template literals. -/
def jsCoerceStr : JsValue → String
  | .str s => s
  | .num n => toString n
  | .boolV b => if b then "true" else "false"
  | .null => "null"
  | .undef => "undefined"
  | .arr xs => String.intercalate "," (xs.attach.map (fun x => jsCoerceStr x.1))
  | .obj _ => "[object Object]"
decreasing_by
  have hm := List.sizeOf_lt_of_mem x.2
  simp only [JsValue.arr.sizeOf_spec]
  omega

/-- Object.entries, for the value shapes the library can encounter. -/
def jsEntries : JsValue → List (String × JsValue)
  | .obj fs => fs
  | .arr xs => xs.enum.map (fun p => (toString p.1, p.2))
  | .str s => s.toList.enum.map (fun p => (toString p.1, JsValue.str (String.mk [p.2])))
  | _ => []

/-- ApiFieldError from api-forms.models.ts. -/
structure ApiFieldError where
  field : String
  constraint : String
  message : String
deriving DecidableEq, Repr

/-- ResolvedFieldError from api-forms.models.ts. -/
structure ResolvedFieldError where
  field : String
  errorKey : String
  message : String
deriving DecidableEq, Repr

/-- A value stored in an Angular ValidationErrors record: the library writes
message strings; independent validators may store other values (booleans). -/
inductive ErrVal where
  | strV : String → ErrVal
  | boolV : Bool → ErrVal
deriving DecidableEq, Repr

/-- An Angular ValidationErrors object. -/
abbrev ErrMap := List (String × ErrVal)

/-- The Angular control tree, restricted to the state this library touches.
Each control carries its current error map (null or an object), its touched
flag, and the error map its own validators currently produce (what
updateValueAndValidity would recompute; none when the validators pass). -/
inductive Control where
  | leaf (errors : Option ErrMap) (touched : Bool) (validator : Option ErrMap)
  | group (ctrls : List (String × Control)) (errors : Option ErrMap)
      (touched : Bool) (validator : Option ErrMap)
  | coll (items : List Control) (errors : Option ErrMap)
      (touched : Bool) (validator : Option ErrMap)

/-- One step into the control tree: a named child of a FormGroup or an
indexed element of a FormArray. -/
inductive Step where
  | child : String → Step
  | item : Nat → Step
deriving DecidableEq, Repr

abbrev Path := List Step

/-- The control's current error map (AbstractControl.errors). -/
def Control.errors : Control → Option ErrMap
  | .leaf e _ _ => e
  | .group _ e _ _ => e
  | .coll _ e _ _ => e

/-- The error map the control's own validators currently produce. -/
def Control.validator : Control → Option ErrMap
  | .leaf _ _ v => v
  | .group _ _ _ v => v
  | .coll _ _ _ v => v

/-- AbstractControl.setErrors, on the control itself. -/
def Control.setErrors : Control → Option ErrMap → Control
  | .leaf _ t v, e => .leaf e t v
  | .group cs _ t v, e => .group cs e t v
  | .coll xs _ t v, e => .coll xs e t v

/-- AbstractControl.markAsTouched, on the control itself. -/
def Control.markTouched : Control → Control
  | .leaf e _ v => .leaf e true v
  | .group cs e _ v => .group cs e true v
  | .coll xs e _ v => .coll xs e true v

/-- Fetch the control at a path (none when the path does not resolve). -/
def Control.getAt : Control → Path → Option Control
  | c, [] => some c
  | .group cs _ _ _, .child n :: p =>
    match alistGet cs n with
    | some c => c.getAt p
    | none => none
  | .coll xs _ _ _, .item i :: p =>
    match xs[i]? with
    | some c => c.getAt p
    | none => none
  | _, _ => none

/-- Update the named child of a form group's control record (control names
are unique object keys, so updating the first binding is updating the
child). -/
def updChild (cs : List (String × Control)) (n : String)
    (f : Control → Control) : List (String × Control) :=
  match cs with
  | [] => []
  | (a, c) :: rest =>
    if a = n then (a, f c) :: rest else (a, c) :: updChild rest n f

/-- Apply a function to the control at a path (identity when the path does
not resolve). -/
def Control.modifyAt : Control → Path → (Control → Control) → Control
  | c, [], f => f c
  | .group cs e t v, .child n :: p, f =>
    .group (updChild cs n (fun c => c.modifyAt p f)) e t v
  | .coll xs e t v, .item i :: p, f =>
    match xs[i]? with
    | some c => .coll (xs.set i (c.modifyAt p f)) e t v
    | none => .coll xs e t v
  | c, _ :: _, _ => c

/-- The error map visible at a path: control missing and control with null
errors both read back as none. -/
def errAtP (r : Control) (p : Path) : Option ErrMap :=
  (r.getAt p).bind Control.errors

/-- JS parseInt(s, 10): skip leading whitespace, optional sign, then a
decimal digit run; NaN (none) when no digit is found. -/
def jsParseInt10 (s : String) : Option Int :=
  let cs := s.toList.dropWhile Char.isWhitespace
  let signAndRest : Int × List Char :=
    match cs with
    | '-' :: rest => (-1, rest)
    | '+' :: rest => (1, rest)
    | _ => (1, cs)
  let digits := signAndRest.2.takeWhile Char.isDigit
  if digits.isEmpty then none
  else
    some (signAndRest.1 *
      (digits.foldl (fun acc c => acc * 10 + (c.toNat - '0'.toNat)) 0 : Nat))

/-- String.prototype.split('.') on the field path. -/
def splitDotAux : List Char → List Char → List String
  | [], acc => [String.mk acc.reverse]
  | c :: rest, acc =>
    if c = '.' then String.mk acc.reverse :: splitDotAux rest []
    else splitDotAux rest (c :: acc)

def splitDot (s : String) : List String := splitDotAux s.toList []

/-- FormBridge._resolveNestedControl: walk the split path segments, stepping
through groups by child name and through arrays by parseInt index
(NaN, negative or out-of-range index, a miss, or any segment past a
leaf all yield null). Returns the path of the resolved control so that
distinct field strings reaching the same control compare equal, exactly
as the source's object-identity Map keys do. -/
def resolveSegs : Control → List String → Option Path
  | _, [] => some []
  | .group cs _ _ _, s :: rest =>
    match alistGet cs s with
    | some c => (resolveSegs c rest).map (fun p => Step.child s :: p)
    | none => none
  | .coll xs _ _ _, s :: rest =>
    match jsParseInt10 s with
    | none => none
    | some i =>
      if i < 0 ∨ (xs.length : Int) ≤ i then none
      else
        match xs[i.toNat]? with
        | some c => (resolveSegs c rest).map (fun p => Step.item i.toNat :: p)
        | none => none
  | .leaf _ _ _, _ :: _ => none

/-- The control lookup in FormBridge._applyErrors: first a direct child of
the root form group (this._form.controls[field]), then the nested walk. -/
def resolveControl (root : Control) (field : String) : Option Path :=
  match root with
  | .group cs _ _ _ =>
    if (alistGet cs field).isSome then some [Step.child field]
    else resolveSegs root (splitDot field)
  | _ => none

/-- I18nConfig from api-forms.models.ts (pfx is the source's prefix field). -/
structure I18nConfig where
  resolver : Option (String → String → String → Option String)
  pfx : Option String

/-- The FormBridge configuration state after the constructor ran:
catchAll, mergeErrors, and the merged constraint map. -/
structure BridgeCfg where
  catchAll : Bool
  mergeErrors : Bool
  constraintMap : List (String × String)
  i18n : Option I18nConfig

/-- FormBridge._resolveErrorKey: a mapped constraint returns the mapped
value (even the empty string); an unmapped constraint passes through. -/
def resolveErrorKey (cmap : List (String × String)) (constraint : String) :
    String :=
  match alistGet cmap constraint with
  | some v => v
  | none => constraint

/-- FormBridge._resolveMessage: i18n resolver first (null falls through),
then the i18n key prefix (JS truthiness: the empty prefix is skipped),
then the raw API message. -/
def resolveMessage (i18n : Option I18nConfig) (e : ApiFieldError) : String :=
  let fromResolver : Option String :=
    match i18n with
    | some c =>
      match c.resolver with
      | some r => r e.field e.constraint e.message
      | none => none
    | none => none
  match fromResolver with
  | some s => s
  | none =>
    match i18n with
    | some c =>
      match c.pfx with
      | some p =>
        if p = "" then e.message
        else p ++ "." ++ e.field ++ "." ++ e.constraint
      | none => e.message
    | none => e.message

/-- The resolved error key of one field error under a configuration. -/
def resolvedKeyOf (cfg : BridgeCfg) (e : ApiFieldError) : String :=
  resolveErrorKey cfg.constraintMap e.constraint

/-- The key under which one field error is staged, none when it is skipped
(empty resolved key with catch-all off); an empty key with catch-all on
becomes the generic key. -/
def keptKeyOf (cfg : BridgeCfg) (e : ApiFieldError) : Option String :=
  if resolvedKeyOf cfg e = "" ∧ ¬ cfg.catchAll then none
  else some (if resolvedKeyOf cfg e = "" then "generic" else resolvedKeyOf cfg e)

/-- The per-control pending-error accumulator of _applyErrors, keyed by the
resolved control (represented by its path). -/
abbrev Pending := List (Path × ErrMap)

/-- One iteration of the _applyErrors loop: resolve the control (skip the
error when no control matches), resolve key and message, skip empty keys
unless catch-all, then stage the error into the pending map (reading the
control's current errors as the base in merge mode) and record the
resolved output entry. -/
def applyStep (cfg : BridgeCfg) (root : Control)
    (acc : Pending × List ResolvedFieldError) (fe : ApiFieldError) :
    Pending × List ResolvedFieldError :=
  match resolveControl root fe.field with
  | none => acc
  | some path =>
    let errorKey := resolveErrorKey cfg.constraintMap fe.constraint
    let message := resolveMessage cfg.i18n fe
    if errorKey = "" ∧ ¬ cfg.catchAll then acc
    else
      let finalKey := if errorKey = "" then "generic" else errorKey
      let existing : ErrMap :=
        match alistGet acc.1 path with
        | some m => m
        | none => if cfg.mergeErrors then (errAtP root path).getD [] else []
      (alistSet acc.1 path (alistSet existing finalKey (ErrVal.strV message)),
        acc.2 ++ [⟨fe.field, finalKey, message⟩])

/-- The accumulation phase of FormBridge._applyErrors. -/
def buildPending (cfg : BridgeCfg) (root : Control)
    (fieldErrors : List ApiFieldError) : Pending × List ResolvedFieldError :=
  fieldErrors.foldl (applyStep cfg root) ([], [])

/-- The commit action on one control: markAsTouched then setErrors with the
accumulated map. -/
def touchSet (m : ErrMap) (c : Control) : Control :=
  c.markTouched.setErrors (some m)

/-- The commit phase of FormBridge._applyErrors: for each pending control,
markAsTouched then setErrors with the accumulated map. -/
def commitPending (root : Control) (pend : Pending) : Control :=
  pend.foldl (fun r q => r.modifyAt q.1 (touchSet q.2)) root

/-- FormBridge._applyErrors: accumulate, commit once per control, return the
resolved list. -/
def applyErrs (cfg : BridgeCfg) (root : Control)
    (fieldErrors : List ApiFieldError) : Control × List ResolvedFieldError :=
  let built := buildPending cfg root fieldErrors
  (commitPending root built.1, built.2)

/-- The last binding of a key in an association list (the binding that wins
when the list is replayed as a sequence of updates). -/
def lastGet {α β : Type} [DecidableEq α] : List (α × β) → α → Option β
  | [], _ => none
  | p :: rest, q =>
    match lastGet rest q with
    | some v => some v
    | none => if p.1 = q then some p.2 else none

/-- Replay a sequence of key-value updates onto a base map. -/
def replayPairs {α β : Type} [DecidableEq α] (base : List (α × β))
    (ps : List (α × β)) : List (α × β) :=
  ps.foldl (fun acc q => alistSet acc q.1 q.2) base

/-- The keys of an association list. -/
def keysOf {α β : Type} (l : List (α × β)) : List α := l.map Prod.fst

/-- Where one field error is staged by _applyErrors: the resolved control
path, the final key, and the resolved message; none when the error is
skipped (unresolved control, or suppressed empty key). -/
def stageOf (cfg : BridgeCfg) (root : Control) (e : ApiFieldError) :
    Option (Path × String × String) :=
  match resolveControl root e.field with
  | none => none
  | some pa =>
    match keptKeyOf cfg e with
    | none => none
    | some k => some (pa, k, resolveMessage cfg.i18n e)

/-- The sequence of key-message updates a field-error list stages onto one
control path, in input order. -/
def seqFor (cfg : BridgeCfg) (root : Control) (errs : List ApiFieldError)
    (pa : Path) : List (String × ErrVal) :=
  errs.filterMap (fun e =>
    match stageOf cfg root e with
    | some st => if st.1 = pa then some (st.2.1, ErrVal.strV st.2.2) else none
    | none => none)

/-- The base map the accumulator starts from for one control: the control's
current errors in merge mode, empty otherwise. -/
def baseFor (cfg : BridgeCfg) (root : Control) (pa : Path) : ErrMap :=
  if cfg.mergeErrors then (errAtP root pa).getD [] else []

/-- ErrorPreset from api-forms.models.ts: name, parse, and the optional
constraint map a preset may ship. -/
structure ErrorPreset where
  name : String
  parse : JsValue → List ApiFieldError
  constraintMap : Option (List (String × String))

/-- The preset loop shared by FormBridge.applyApiErrors and parseApiErrors:
try each preset in order, keep the first non-empty result. -/
def tryPresets : List ErrorPreset → JsValue → List ApiFieldError
  | [], _ => []
  | p :: rest, payload =>
    match p.parse payload with
    | [] => tryPresets rest payload
    | r => r

/-- An error interceptor (errors, form) => errors. -/
abbrev Interceptor := List ApiFieldError → Control → List ApiFieldError

/-- The externally observable FormBridge state: the wrapped form and the
_apiErrors signal. -/
structure BridgeState where
  root : Control
  apiErrors : List ResolvedFieldError

/-- FormBridge.applyApiErrors: parse via the preset loop, run interceptors
in registration order, apply to the form, publish the resolved list. -/
def applyApiErrors (cfg : BridgeCfg) (presets : List ErrorPreset)
    (interceptors : List Interceptor) (st : BridgeState) (payload : JsValue) :
    BridgeState × List ResolvedFieldError :=
  let fieldErrors := tryPresets presets payload
  let fieldErrors := interceptors.foldl (fun fe i => i fe st.root) fieldErrors
  let applied := applyErrs cfg st.root fieldErrors
  (⟨applied.1, applied.2⟩, applied.2)

/-- JS \w character class: ASCII letters, digits, underscore. -/
def isWordChar (c : Char) : Bool := c.isAlphanum || c = '_'

/-- Lowercase every character (String.prototype.toLowerCase on the ASCII
text these patterns target). -/
def lowerStr (s : String) : String := String.mk (s.toList.map Char.toLower)

/-- charAt(0).toLowerCase() + slice(1). -/
def lowerFirst (s : String) : String :=
  match s.toList with
  | [] => ""
  | c :: rest => String.mk (c.toLower :: rest)

/-- Case-insensitive substring test (RegExp.prototype.test of a literal
pattern with the i flag). -/
def containsSubCI (hay sub : String) : Bool :=
  go (lowerStr hay).toList (lowerStr sub).toList
where
  go : List Char → List Char → Bool
    | [], s => s.isEmpty
    | c :: rest, s => s.isPrefixOf (c :: rest) || go rest s

/-- One pattern of classValidatorPreset's parseStringMessage table.
cap: the pattern starts with a captured word; lits: the
alternative literals that must follow the captured word (or start the
message when cap is false, covering the a/an alternation of the
source regexes); exactEnd: the regex is anchored with a dollar sign;
ci: the i flag. -/
structure MsgPattern where
  cap : Bool
  lits : List String
  exactEnd : Bool
  ci : Bool
  constraint : String

/-- The ordered pattern table of parseStringMessage. -/
def CV_MSG_PATTERNS : List MsgPattern :=
  [ ⟨true, [" is required"], true, false, "required"⟩,
    ⟨true, [" must be shorter"], false, false, "maxLength"⟩,
    ⟨true, [" must be longer"], false, false, "minLength"⟩,
    ⟨true, [" must not be less"], false, false, "min"⟩,
    ⟨true, [" must not be more"], false, false, "max"⟩,
    ⟨true, [" must be a email", " must be an email"], false, false, "isEmail"⟩,
    ⟨true, [" must be a valid phone", " must be an valid phone"], false, false,
      "isPhoneNumber"⟩,
    ⟨true, [" must be one of the following"], false, false, "isEnum"⟩,
    ⟨true, [" must be a Date", " must be an Date"], false, false, "isDate"⟩,
    ⟨true, [" must be a IBAN", " must be an IBAN"], false, false, "isIBAN"⟩,
    ⟨true, [" must be a EAN", " must be an EAN"], false, false, "isEAN"⟩,
    ⟨true, [" must be a URL", " must be an URL"], false, false, "isUrl"⟩,
    ⟨true, [" must be a valid url", " must be an valid url"], false, true,
      "isUrl"⟩,
    ⟨true, [" is not valid"], false, true, "invalid"⟩,
    ⟨true, [" is already taken"], false, true, "unique"⟩,
    ⟨true, [" is already used"], false, true, "unique"⟩,
    ⟨true, [" must be a valid decimal"], false, true, "isDecimal"⟩,
    ⟨false, ["Email is already used"], false, true, "unique"⟩,
    ⟨false, ["File url is already used"], false, true, "unique"⟩ ]

/-- Whether the text after the captured word matches one of the pattern's
literal alternatives (prefix match, or full match when anchored). -/
def restMatches (rest : String) (p : MsgPattern) : Bool :=
  p.lits.any (fun lit =>
    let r := if p.ci then lowerStr rest else rest
    let l := if p.ci then lowerStr lit else lit
    if p.exactEnd then r = l else l.isPrefixOf r)

/-- Match one parseStringMessage pattern against the message, producing the
derived field name on success (the lowercased capture, or the source's
"unknown" for the capture-free patterns). -/
def patternField (message : String) (p : MsgPattern) : Option String :=
  if p.cap then
    let split := message.toList.span isWordChar
    if split.1.isEmpty then none
    else if restMatches (String.mk split.2) p then
      some (lowerFirst (String.mk split.1))
    else none
  else
    if restMatches message p then some "unknown" else none

/-- The first matching pattern of the table, with its constraint. -/
def firstPatternMatch (message : String) :
    List MsgPattern → Option (String × String)
  | [] => none
  | p :: rest =>
    match patternField message p with
    | some f => some (f, p.constraint)
    | none => firstPatternMatch message rest

/-- classValidatorPreset's parseStringMessage: the ordered pattern table,
then the special-cased substring fallbacks, else no result. -/
def parseStringMessage (message : String) : List ApiFieldError :=
  match firstPatternMatch message CV_MSG_PATTERNS with
  | some fc => [⟨fc.1, fc.2, message⟩]
  | none =>
    if containsSubCI message "email is already used" then
      [⟨"email", "unique", message⟩]
    else if containsSubCI message "file url is already used" then
      [⟨"url", "unique", message⟩]
    else if containsSubCI message "file is required" then
      [⟨"file", "required", message⟩]
    else []

theorem sizeOf_alistGet_js {l : List (String × JsValue)} {k : String}
    {v : JsValue} (h : alistGet l k = some v) : sizeOf v < sizeOf l := by
  induction l with
  | nil => simp [alistGet] at h
  | cons p rest ih =>
    obtain ⟨a, b⟩ := p
    by_cases hk : a = k
    · subst hk
      simp [alistGet] at h
      subst h
      simp
      omega
    · rw [alistGet, if_neg hk] at h
      have := ih h
      simp
      omega

/-- classValidatorPreset's flattenErrors: dot-join the property into the
parent path, emit one field error per constraints entry, and recursively
flatten non-empty children arrays. -/
def flattenErrors (errors : List JsValue) (parentPath : String) :
    List ApiFieldError :=
  match errors with
  | [] => []
  | e :: rest =>
    let contrib :=
      match e with
      | .obj fields =>
        let propV := (alistGet fields "property").getD JsValue.undef
        let path :=
          if parentPath = "" then jsCoerceStr propV
          else parentPath ++ "." ++ jsCoerceStr propV
        let consPart :=
          match alistGet fields "constraints" with
          | some cv =>
            if jsTruthy cv then
              (jsEntries cv).map (fun q => ApiFieldError.mk path q.1 (jsCoerceStr q.2))
            else []
          | none => []
        let childPart :=
          match hc : alistGet fields "children" with
          | some (.arr xs) =>
            if xs.length > 0 then flattenErrors xs path else []
          | _ => []
        consPart ++ childPart
      | _ => []
    contrib ++ flattenErrors rest parentPath
termination_by sizeOf errors
decreasing_by
  all_goals first
  | (have h1 := sizeOf_alistGet_js hc
     simp only [JsValue.arr.sizeOf_spec, JsValue.obj.sizeOf_spec,
       List.cons.sizeOf_spec] at h1 ⊢
     omega)
  | (simp only [List.cons.sizeOf_spec]
     omega)

/-- classValidatorPreset's parse: reject non-objects, then in order the
ValidationPipe array of structured errors under message, an array of
string messages, a single string message, and a direct structured
array; everything else yields the empty list. -/
def classValidatorParse (error : JsValue) : List ApiFieldError :=
  if ¬ jsTruthy error then []
  else if ¬ jsTypeofObject error then []
  else
    match jsGet error "message" with
    | some (.arr messages) =>
      match messages with
      | [] => []
      | m0 :: _ =>
        if jsTypeofObject m0 ∧ jsHasProp m0 "property" then
          flattenErrors messages ""
        else
          match m0 with
          | .str _ =>
            (messages.map (fun m => parseStringMessage (jsCoerceStr m))).flatten
          | _ => []
    | some (.str s) => parseStringMessage s
    | _ =>
      match error with
      | .arr (i0 :: irest) =>
        if jsTypeofObject i0 ∧ ¬ jsIsNull i0 ∧ jsHasProp i0 "property" then
          flattenErrors (i0 :: irest) ""
        else []
      | _ => []

/-- classValidatorPreset() from class-validator.preset.ts: the returned
object carries only a name and a parse function (no constraintMap). -/
def classValidatorPreset : ErrorPreset :=
  ⟨"class-validator", classValidatorParse, none⟩

/-- CLASS_VALIDATOR_CONSTRAINT_MAP. -/
def CLASS_VALIDATOR_CONSTRAINT_MAP : List (String × String) :=
  [ ("isNotEmpty", "required"), ("isEmail", "email"), ("minLength", "minlength"),
    ("maxLength", "maxlength"), ("min", "min"), ("max", "max"),
    ("isPhoneNumber", "phone"), ("isEnum", "enum"), ("isDate", "date"),
    ("isDateString", "date"), ("isIBAN", "iban"), ("isEAN", "ean"),
    ("isUrl", "url"), ("isURL", "url"), ("isDecimal", "decimal"),
    ("isNumber", "number"), ("isInt", "integer"), ("isBoolean", "boolean"),
    ("isString", "string"), ("isArray", "array"), ("arrayMinSize", "minlength"),
    ("arrayMaxSize", "maxlength"), ("matches", "pattern"),
    ("isStrongPassword", "password"), ("unique", "unique"),
    ("invalid", "invalid"), ("required", "required") ]

/-- LARAVEL_CONSTRAINT_MAP. -/
def LARAVEL_CONSTRAINT_MAP : List (String × String) :=
  [ ("required", "required"), ("email", "email"), ("minlength", "minlength"),
    ("maxlength", "maxlength"), ("min", "min"), ("max", "max"),
    ("number", "number"), ("integer", "integer"), ("date", "date"),
    ("url", "url"), ("unique", "unique"), ("pattern", "pattern"),
    ("phone", "phone"), ("invalid", "invalid"), ("accepted", "accepted"),
    ("confirmed", "confirmed"), ("file", "file"), ("image", "image"),
    ("serverError", "serverError") ]

/-- DJANGO_CONSTRAINT_MAP. -/
def DJANGO_CONSTRAINT_MAP : List (String × String) :=
  [ ("required", "required"), ("email", "email"), ("minlength", "minlength"),
    ("maxlength", "maxlength"), ("min", "min"), ("max", "max"),
    ("integer", "integer"), ("number", "number"), ("date", "date"),
    ("url", "url"), ("unique", "unique"), ("phone", "phone"),
    ("pattern", "pattern"), ("invalid", "invalid"),
    ("serverError", "serverError") ]

/-- ZOD_CONSTRAINT_MAP. -/
def ZOD_CONSTRAINT_MAP : List (String × String) :=
  [ ("required", "required"), ("email", "email"), ("url", "url"),
    ("uuid", "uuid"), ("minlength", "minlength"), ("maxlength", "maxlength"),
    ("min", "min"), ("max", "max"), ("regex", "pattern"), ("enum", "enum"),
    ("date", "date"), ("custom", "custom"), ("invalid", "invalid"),
    ("serverError", "serverError") ]

/-- The PRESET_CONSTRAINT_MAPS registry of form-bridge.ts: a hardcoded
name-to-map table holding only the four built-in dialects. -/
def PRESET_CONSTRAINT_MAPS : List (String × List (String × String)) :=
  [ ("class-validator", CLASS_VALIDATOR_CONSTRAINT_MAP),
    ("laravel", LARAVEL_CONSTRAINT_MAP),
    ("django", DJANGO_CONSTRAINT_MAP),
    ("zod", ZOD_CONSTRAINT_MAP) ]

/-- FormBridge._resolvePresetConstraintMap: Object.assign the registry map
of each configured preset's name in order; if nothing was found, fall
back to the class-validator map. The preset's own constraintMap
property is never consulted. -/
def resolvePresetConstraintMap (presets : List ErrorPreset) :
    List (String × String) :=
  let merged := presets.foldl
    (fun acc p =>
      match alistGet PRESET_CONSTRAINT_MAPS p.name with
      | some m => objAssign acc m
      | none => acc) []
  if merged.isEmpty then objAssign [] CLASS_VALIDATOR_CONSTRAINT_MAP
  else merged

/-- The constructor's constraint-map build: preset defaults spread first,
caller overrides spread last. -/
def mkConstraintMap (presets : List ErrorPreset)
    (override : Option (List (String × String))) : List (String × String) :=
  objAssign (resolvePresetConstraintMap presets) (override.getD [])

/-- parseApiErrors from form-utils.ts: the same preset loop over the given
presets (class-validator by default), empty when nothing matches. -/
def parseApiErrors (apiError : JsValue)
    (preset : Option (List ErrorPreset)) : List ApiFieldError :=
  tryPresets (preset.getD [classValidatorPreset]) apiError

/-- setErrors(null) followed by updateValueAndValidity() on one control:
its own errors become whatever its validators currently produce. -/
def clearControl (c : Control) : Control := c.setErrors c.validator

/-- FormBridge.clearApiErrors: reset every direct child of the root form
group (setErrors(null) + updateValueAndValidity), revalidate the root,
and empty the _apiErrors signal. Only direct children are visited. -/
def clearApiErrors (st : BridgeState) : BridgeState :=
  match st.root with
  | .group cs _ t v =>
    ⟨.group (cs.map (fun q => (q.1, clearControl q.2))) v t v, []⟩
  | r => ⟨r, []⟩

/-! Concrete fixtures used by the claim theorems. -/

/-- The configuration state of new FormBridge(form) with no config:
catchAll and mergeErrors default to false, the preset defaults to
class-validator, no constraint-map override, no i18n. -/
def defaultCfg : BridgeCfg :=
  ⟨false, false, mkConstraintMap [classValidatorPreset] none, none⟩

/-- A form group with email and name controls and no validators. -/
def formEmailName : Control :=
  .group [("email", .leaf none false none), ("name", .leaf none false none)]
    none false none

/-- A form whose name control holds an independently-set error
(customError: true) before any API error is applied. -/
def customErrorForm : Control :=
  .group [("name", .leaf (some [("customError", ErrVal.boolV true)]) false none)]
    none false none

/-- A form group holding a three-element form array named items. -/
def itemsTree : Control :=
  .group [("items", .coll [.leaf none false none, .leaf none false none,
    .leaf none false none] none false none)] none false none

/-- The payload of E2E scenario A exactly as the claim writes it, with the
field errors under an errors key. -/
def payloadScenarioA : JsValue :=
  .obj [("errors", .arr [
    .obj [("property", .str "email"),
      ("constraints", .obj [("isEmail", .str "email must be an email")])],
    .obj [("property", .str "name"),
      ("constraints", .obj [("isNotEmpty", .str "name should not be empty")])]])]

/-- The same payload under the message key, the envelope the
class-validator preset actually recognizes (NestJS ValidationPipe). -/
def payloadScenarioAMessage : JsValue :=
  .obj [("message", .arr [
    .obj [("property", .str "email"),
      ("constraints", .obj [("isEmail", .str "email must be an email")])],
    .obj [("property", .str "name"),
      ("constraints", .obj [("isNotEmpty", .str "name should not be empty")])]])]

/-- A third-party dialect preset carrying its own constraint map, the
integration shape the models documentation describes. -/
def thirdPartyPreset : ErrorPreset :=
  ⟨"third-party", fun _ => [], some [("foo", "bar")]⟩

/-- A form group with a nested address group holding a city control. -/
def addressTree : Control :=
  .group [("address", .group [("city", .leaf none false none)]
    none false none)] none false none

/-! Association-list lemmas. -/

theorem alistGet_alistSet {α β : Type} [DecidableEq α]
    (l : List (α × β)) (k : α) (v : β) (q : α) :
    alistGet (alistSet l k v) q = if q = k then some v else alistGet l q := by
  induction l with
  | nil =>
    by_cases hq : q = k
    · subst hq
      simp [alistSet, alistGet]
    · have hk : ¬ k = q := fun hh => hq hh.symm
      simp [alistSet, alistGet, hq, hk]
  | cons a rest ih =>
    obtain ⟨a1, a2⟩ := a
    by_cases hak : a1 = k
    · subst hak
      by_cases hq : q = a1
      · subst hq
        simp [alistSet, alistGet]
      · have h2 : ¬ a1 = q := fun hh => hq hh.symm
        simp [alistSet, alistGet, hq, h2]
    · by_cases haq : a1 = q
      · subst haq
        simp [alistSet, alistGet, hak]
      · simp [alistSet, alistGet, hak, haq, ih]

theorem updChild_alistGet (cs : List (String × Control)) (n : String)
    (f : Control → Control) (s : String) :
    alistGet (updChild cs n f) s =
      if s = n then (alistGet cs n).map f else alistGet cs s := by
  induction cs with
  | nil => simp [updChild, alistGet]
  | cons a rest ih =>
    obtain ⟨a1, c⟩ := a
    by_cases han : a1 = n
    · subst han
      by_cases hs : s = a1
      · subst hs
        simp [updChild, alistGet]
      · have h2 : ¬ a1 = s := fun hh => hs hh.symm
        simp [updChild, alistGet, hs, h2]
    · by_cases has : a1 = s
      · subst has
        simp [updChild, alistGet, han]
      · simp [updChild, alistGet, han, has, ih]

theorem alistGet_eq_none_iff {α β : Type} [DecidableEq α]
    {l : List (α × β)} {q : α} : alistGet l q = none ↔ q ∉ keysOf l := by
  induction l with
  | nil => simp [alistGet, keysOf]
  | cons a rest ih =>
    obtain ⟨k, v⟩ := a
    by_cases hk : k = q
    · subst hk
      simp [alistGet, keysOf]
    · simp only [alistGet, if_neg hk, keysOf, List.map_cons, List.mem_cons]
      rw [ih]
      constructor
      · intro hq hmem
        cases hmem with
        | inl hh => exact hk hh.symm
        | inr hh => exact hq hh
      · intro hq
        exact fun hmem => hq (Or.inr hmem)

theorem keysOf_alistSet {α β : Type} [DecidableEq α]
    (l : List (α × β)) (k : α) (v : β) :
    keysOf (alistSet l k v) =
      if (alistGet l k).isSome then keysOf l else keysOf l ++ [k] := by
  induction l with
  | nil => simp [alistSet, alistGet, keysOf]
  | cons a rest ih =>
    obtain ⟨a1, a2⟩ := a
    simp only [keysOf] at ih ⊢
    by_cases hak : a1 = k
    · subst hak
      simp [alistSet, alistGet]
    · rw [alistSet, if_neg hak, List.map_cons, ih, alistGet, if_neg hak]
      by_cases hs : (alistGet rest k).isSome
      · rw [if_pos hs, if_pos hs, List.map_cons]
      · rw [if_neg hs, if_neg hs, List.map_cons, List.cons_append]

theorem nodup_keys_alistSet {α β : Type} [DecidableEq α]
    {l : List (α × β)} (k : α) (v : β) (h : (keysOf l).Nodup) :
    (keysOf (alistSet l k v)).Nodup := by
  rw [keysOf_alistSet]
  by_cases hs : (alistGet l k).isSome
  · rwa [if_pos hs]
  · rw [if_neg hs]
    have hn : k ∉ keysOf l :=
      alistGet_eq_none_iff.mp (Option.not_isSome_iff_eq_none.mp hs)
    rw [List.nodup_append]
    refine ⟨h, List.nodup_singleton k, ?_⟩
    intro a ha hmem
    rw [List.mem_singleton] at hmem
    subst hmem
    exact hn ha

theorem lastGet_eq_alistGet {α β : Type} [DecidableEq α]
    {l : List (α × β)} (h : (keysOf l).Nodup) (q : α) :
    lastGet l q = alistGet l q := by
  induction l with
  | nil => rfl
  | cons a rest ih =>
    obtain ⟨k, v⟩ := a
    simp only [keysOf, List.map_cons, List.nodup_cons] at h
    have ihq := ih h.2
    rw [lastGet, alistGet, ihq]
    by_cases hk : k = q
    · subst hk
      have hnone : alistGet rest k = none := alistGet_eq_none_iff.mpr (by
        intro hmem
        exact h.1 hmem)
      rw [hnone]
    · cases hr : alistGet rest q with
      | some b => simp [hk]
      | none => simp [hk]

theorem alistGet_replayPairs {α β : Type} [DecidableEq α]
    (ps : List (α × β)) (base : List (α × β)) (q : α) :
    alistGet (replayPairs base ps) q =
      match lastGet ps q with
      | some v => some v
      | none => alistGet base q := by
  induction ps generalizing base with
  | nil => rfl
  | cons a rest ih =>
    obtain ⟨k, v⟩ := a
    rw [replayPairs, List.foldl_cons]
    have step : List.foldl (fun acc q => alistSet acc q.1 q.2)
        (alistSet base k v) rest = replayPairs (alistSet base k v) rest := rfl
    rw [step, ih, lastGet]
    cases hr : lastGet rest q with
    | some w => simp
    | none =>
      rw [alistGet_alistSet]
      by_cases hk : k = q
      · subst hk
        simp
      · have h2 : ¬ q = k := fun hh => hk hh.symm
        simp [hk, h2]

theorem replayPairs_absorb {α β : Type} [DecidableEq α]
    (ps : List (α × β)) (base : List (α × β)) (q : α) :
    alistGet (replayPairs (replayPairs base ps) ps) q =
      alistGet (replayPairs base ps) q := by
  rw [alistGet_replayPairs, alistGet_replayPairs]
  cases lastGet ps q <;> rfl


/-! Control-tree lemmas: the commit modifier touchSet only rewrites one
control's own error map and touched flag, so path resolution and the
errors visible at every other path are unaffected. -/

theorem modifyAt_nil (t : Control) (f : Control → Control) :
    t.modifyAt [] f = f t := by
  cases t <;> rfl

theorem getAt_nil (t : Control) : t.getAt [] = some t := by
  cases t <;> rfl

theorem touchSet_errors (m : ErrMap) (c : Control) :
    (touchSet m c).errors = some m := by
  cases c <;> rfl

theorem touchSet_getAt_cons (m : ErrMap) (c : Control) (s : Step) (p : Path) :
    (touchSet m c).getAt (s :: p) = c.getAt (s :: p) := by
  cases c <;> cases s <;> rfl

theorem resolveSegs_touchSet (m : ErrMap) (c : Control) (segs : List String) :
    resolveSegs (touchSet m c) segs = resolveSegs c segs := by
  cases c <;> cases segs <;> rfl

theorem getAt_one_group (cs : List (String × Control)) (e : Option ErrMap)
    (tch : Bool) (v : Option ErrMap) (n : String) :
    (Control.group cs e tch v).getAt [Step.child n] = alistGet cs n := by
  cases halist : alistGet cs n <;> simp [Control.getAt, halist]

theorem getAt_one_coll (xs : List Control) (e : Option ErrMap)
    (tch : Bool) (v : Option ErrMap) (i : Nat) :
    (Control.coll xs e tch v).getAt [Step.item i] = xs[i]? := by
  cases hx : xs[i]? <;> simp [Control.getAt, hx]

theorem getAt_cons (t : Control) (s : Step) (q : Path) :
    t.getAt (s :: q) = (t.getAt [s]).bind (fun c => c.getAt q) := by
  cases t with
  | leaf e tch v => cases s <;> rfl
  | group cs e tch v =>
    cases s with
    | child n =>
      rw [getAt_one_group]
      cases halist : alistGet cs n <;> simp [Control.getAt, halist]
    | item i => rfl
  | coll xs e tch v =>
    cases s with
    | child n => rfl
    | item i =>
      rw [getAt_one_coll]
      cases hx : xs[i]? <;> simp [Control.getAt, hx]

theorem errAtP_cons (t : Control) (s : Step) (q : Path) :
    errAtP t (s :: q) = (t.getAt [s]).bind (fun c => errAtP c q) := by
  rw [errAtP, getAt_cons]
  cases t.getAt [s] <;> rfl

theorem modifyAt_cons_errors (f : Control → Control) (t : Control) (st : Step)
    (p : Path) : (t.modifyAt (st :: p) f).errors = t.errors := by
  cases t with
  | leaf e tch v => cases st <;> rfl
  | group cs e tch v => cases st <;> rfl
  | coll xs e tch v =>
    cases st with
    | child n => rfl
    | item i =>
      show (Control.modifyAt (.coll xs e tch v) (Step.item i :: p) f).errors = _
      rw [Control.modifyAt]
      cases hx : xs[i]? <;> rfl

theorem modifyAt_cons_getAt_one (f : Control → Control) (t : Control)
    (st : Step) (p : Path) (s2 : Step) :
    (t.modifyAt (st :: p) f).getAt [s2] =
      if s2 = st then (t.getAt [st]).map (fun c => c.modifyAt p f)
      else t.getAt [s2] := by
  cases t with
  | leaf e tch v =>
    have hmod : Control.modifyAt (.leaf e tch v) (st :: p) f = .leaf e tch v := by
      cases st <;> rfl
    rw [hmod]
    by_cases hs : s2 = st
    · subst hs
      have h1 : (Control.leaf e tch v).getAt [s2] = none := by cases s2 <;> rfl
      rw [h1]
      simp
    · rw [if_neg hs]
  | group cs e tch v =>
    cases st with
    | item i =>
      have hmod : Control.modifyAt (.group cs e tch v) (Step.item i :: p) f =
          .group cs e tch v := rfl
      rw [hmod]
      by_cases hs : s2 = Step.item i
      · subst hs
        rw [if_pos rfl]
        rfl
      · rw [if_neg hs]
    | child n =>
      show (Control.group (updChild cs n (fun c => c.modifyAt p f)) e tch v).getAt
        [s2] = _
      cases s2 with
      | item j =>
        have hne : Step.item j ≠ Step.child n := by simp
        rw [if_neg hne]
        rfl
      | child n2 =>
        by_cases hn : n2 = n
        · subst hn
          rw [if_pos rfl, getAt_one_group, getAt_one_group, updChild_alistGet,
            if_pos rfl]
        · rw [if_neg (fun hh => hn (Step.child.inj hh)), getAt_one_group,
            getAt_one_group, updChild_alistGet, if_neg hn]
  | coll xs e tch v =>
    cases st with
    | child n =>
      have hmod : Control.modifyAt (.coll xs e tch v) (Step.child n :: p) f =
          .coll xs e tch v := rfl
      rw [hmod]
      by_cases hs : s2 = Step.child n
      · subst hs
        rw [if_pos rfl]
        rfl
      · rw [if_neg hs]
    | item i =>
      show (Control.modifyAt (.coll xs e tch v) (Step.item i :: p) f).getAt
        [s2] = _
      rw [Control.modifyAt]
      cases hx : xs[i]? with
      | none =>
        show (Control.coll xs e tch v).getAt [s2] = _
        by_cases hs : s2 = Step.item i
        · subst hs
          rw [if_pos rfl, getAt_one_coll, hx]
          rfl
        · rw [if_neg hs]
      | some c =>
        show (Control.coll (xs.set i (c.modifyAt p f)) e tch v).getAt [s2] = _
        cases s2 with
        | child n2 =>
          have hne : Step.child n2 ≠ Step.item i := by simp
          rw [if_neg hne]
          rfl
        | item j =>
          rw [getAt_one_coll, getAt_one_coll, getAt_one_coll, hx,
            List.getElem?_set]
          by_cases hij : j = i
          · subst hij
            have hlt : j < xs.length := (List.getElem?_eq_some_iff.mp hx).1
            rw [if_pos rfl, if_pos rfl, if_pos hlt]
            rfl
          · rw [if_neg (fun hh => hij (Step.item.inj hh)),
              if_neg (fun hh => hij hh.symm)]

theorem errAtP_modifyAt_touchSet (m : ErrMap) :
    ∀ (q p : Path) (t : Control),
    errAtP (t.modifyAt p (touchSet m)) q =
      if q = p ∧ (t.getAt p).isSome then some m else errAtP t q := by
  intro q
  induction q with
  | nil =>
    intro p t
    cases p with
    | nil =>
      rw [modifyAt_nil]
      simp [errAtP, getAt_nil, touchSet_errors]
    | cons st p' =>
      rw [if_neg (fun hh => List.noConfusion hh.1)]
      simp [errAtP, getAt_nil, modifyAt_cons_errors]
  | cons s q' ih =>
    intro p t
    cases p with
    | nil =>
      rw [if_neg (fun hh => List.noConfusion hh.1), modifyAt_nil, errAtP,
        errAtP, touchSet_getAt_cons]
    | cons st p' =>
      by_cases hs : s = st
      · subst hs
        rw [errAtP_cons, modifyAt_cons_getAt_one, if_pos rfl]
        cases hg : t.getAt [s] with
        | none =>
          rw [if_neg (fun hh => by
            have h2 := hh.2
            rw [getAt_cons, hg] at h2
            simp at h2), errAtP_cons, hg]
          rfl
        | some c =>
          simp only [Option.map_some', Option.some_bind]
          rw [ih]
          by_cases hq : q' = p'
          · subst hq
            by_cases hv : (c.getAt q').isSome
            · rw [if_pos ⟨rfl, hv⟩, if_pos ⟨rfl, by rw [getAt_cons, hg]; exact hv⟩]
            · rw [if_neg (fun hh => hv hh.2), if_neg (fun hh => by
                have h2 := hh.2
                rw [getAt_cons, hg] at h2
                exact hv h2), errAtP_cons, hg]
              rfl
          · rw [if_neg (fun hh => hq hh.1), if_neg (fun hh => by
              have h1 := hh.1
              rw [List.cons.injEq] at h1
              exact hq h1.2), errAtP_cons, hg]
            rfl
      · rw [errAtP_cons, modifyAt_cons_getAt_one, if_neg hs, ← errAtP_cons,
          if_neg (fun hh => by
            have h1 := hh.1
            rw [List.cons.injEq] at h1
            exact hs h1.1)]

theorem getAt_isSome_modifyAt_touchSet (m : ErrMap) :
    ∀ (q p : Path) (t : Control),
    ((t.modifyAt p (touchSet m)).getAt q).isSome = (t.getAt q).isSome := by
  intro q
  induction q with
  | nil =>
    intro p t
    rw [getAt_nil, getAt_nil]
    rfl
  | cons s q' ih =>
    intro p t
    cases p with
    | nil =>
      rw [modifyAt_nil, touchSet_getAt_cons]
    | cons st p' =>
      rw [getAt_cons (t.modifyAt (st :: p') (touchSet m)) s q',
        getAt_cons t s q', modifyAt_cons_getAt_one]
      by_cases hs : s = st
      · subst hs
        rw [if_pos rfl]
        cases hg : t.getAt [s] with
        | none => simp
        | some c =>
          simp only [Option.map_some', Option.some_bind]
          exact ih p' c
      · rw [if_neg hs]

theorem resolveSegs_nil (t : Control) : resolveSegs t [] = some [] := by
  cases t <;> rfl

theorem isSome_map_opt {α β : Type} (g : α → β) (o : Option α) :
    (o.map g).isSome = o.isSome := by
  cases o <;> rfl

theorem resolveSegs_modifyAt (m : ErrMap) :
    ∀ (segs : List String) (t : Control) (p : Path),
    resolveSegs (t.modifyAt p (touchSet m)) segs = resolveSegs t segs := by
  intro segs
  induction segs with
  | nil =>
    intro t p
    rw [resolveSegs_nil, resolveSegs_nil]
  | cons s rest ih =>
    intro t p
    cases p with
    | nil => rw [modifyAt_nil, resolveSegs_touchSet]
    | cons st p' =>
      cases t with
      | leaf e tch v =>
        have hmod : Control.modifyAt (.leaf e tch v) (st :: p') (touchSet m) =
            .leaf e tch v := by cases st <;> rfl
        rw [hmod]
      | group cs e tch v =>
        cases st with
        | item i => rfl
        | child n =>
          show resolveSegs (.group (updChild cs n
            (fun c => c.modifyAt p' (touchSet m))) e tch v) (s :: rest) = _
          rw [resolveSegs, resolveSegs, updChild_alistGet]
          by_cases hsn : s = n
          · subst hsn
            rw [if_pos rfl]
            cases halist : alistGet cs s with
            | none => rfl
            | some c =>
              simp only [Option.map_some']
              rw [ih]
          · rw [if_neg hsn]
      | coll xs e tch v =>
        cases st with
        | child n => rfl
        | item i =>
          rw [Control.modifyAt]
          cases hx : xs[i]? with
          | none => rfl
          | some c =>
            show resolveSegs (.coll (xs.set i (c.modifyAt p' (touchSet m)))
              e tch v) (s :: rest) = resolveSegs (.coll xs e tch v) (s :: rest)
            rw [resolveSegs, resolveSegs]
            cases hji : jsParseInt10 s with
            | none => rfl
            | some j =>
              simp only [List.length_set]
              by_cases hb : j < 0 ∨ (xs.length : Int) ≤ j
              · rw [if_pos hb, if_pos hb]
              · rw [if_neg hb, if_neg hb, List.getElem?_set]
                by_cases hij : i = j.toNat
                · have hlt : i < xs.length := (List.getElem?_eq_some_iff.mp hx).1
                  rw [if_pos hij, if_pos hlt, ← hij, hx]
                  simp only
                  rw [ih]
                · rw [if_neg hij]

theorem resolveControl_modifyAt (m : ErrMap) (p : Path) (t : Control)
    (f : String) :
    resolveControl (t.modifyAt p (touchSet m)) f = resolveControl t f := by
  cases t with
  | leaf e tch v =>
    cases p with
    | nil => rfl
    | cons st p' =>
      have hmod : Control.modifyAt (.leaf e tch v) (st :: p') (touchSet m) =
          .leaf e tch v := by cases st <;> rfl
      rw [hmod]
  | coll xs e tch v =>
    cases p with
    | nil => rfl
    | cons st p' =>
      cases st with
      | child n => rfl
      | item i =>
        rw [Control.modifyAt]
        cases hx : xs[i]? with
        | none => rfl
        | some c => rfl
  | group cs e tch v =>
    cases p with
    | nil =>
      rw [modifyAt_nil]
      show resolveControl (.group cs (some m) true v) f = _
      rw [resolveControl, resolveControl]
      by_cases hl : (alistGet cs f).isSome
      · rw [if_pos hl, if_pos hl]
      · rw [if_neg hl, if_neg hl]
        exact resolveSegs_touchSet m (.group cs e tch v) (splitDot f)
    | cons st p' =>
      cases st with
      | item i => rfl
      | child n =>
        have hseg : resolveSegs (.group (updChild cs n
            (fun c => c.modifyAt p' (touchSet m))) e tch v) (splitDot f) =
            resolveSegs (.group cs e tch v) (splitDot f) :=
          resolveSegs_modifyAt m (splitDot f) (.group cs e tch v)
            (Step.child n :: p')
        show resolveControl (.group (updChild cs n
          (fun c => c.modifyAt p' (touchSet m))) e tch v) f = _
        rw [resolveControl, resolveControl, updChild_alistGet]
        by_cases hf : f = n
        · subst hf
          rw [if_pos rfl, isSome_map_opt]
          by_cases hl : (alistGet cs f).isSome
          · rw [if_pos hl, if_pos hl]
          · rw [if_neg hl, if_neg hl]
            exact hseg
        · rw [if_neg hf]
          by_cases hl : (alistGet cs f).isSome
          · rw [if_pos hl, if_pos hl]
          · rw [if_neg hl, if_neg hl]
            exact hseg

/-! Commit-phase lemmas. -/

theorem resolveControl_commitPending (pend : Pending) :
    ∀ (r : Control) (f : String),
    resolveControl (commitPending r pend) f = resolveControl r f := by
  induction pend with
  | nil =>
    intro r f
    rfl
  | cons q rest ih =>
    intro r f
    show resolveControl (commitPending (r.modifyAt q.1 (touchSet q.2)) rest) f = _
    rw [ih, resolveControl_modifyAt]

theorem getAt_isSome_commitPending (pend : Pending) :
    ∀ (r : Control) (q : Path),
    ((commitPending r pend).getAt q).isSome = (r.getAt q).isSome := by
  induction pend with
  | nil =>
    intro r q
    rfl
  | cons a rest ih =>
    intro r q
    show ((commitPending (r.modifyAt a.1 (touchSet a.2)) rest).getAt q).isSome = _
    rw [ih, getAt_isSome_modifyAt_touchSet]

theorem errAtP_commitPending (pend : Pending) :
    ∀ (r : Control) (q : Path),
    errAtP (commitPending r pend) q =
      match lastGet pend q with
      | some mm => if (r.getAt q).isSome then some mm else errAtP r q
      | none => errAtP r q := by
  induction pend with
  | nil =>
    intro r q
    rfl
  | cons a rest ih =>
    intro r q
    obtain ⟨pa, mm⟩ := a
    show errAtP (commitPending (r.modifyAt pa (touchSet mm)) rest) q = _
    rw [ih, lastGet]
    cases hl : lastGet rest q with
    | some m2 =>
      simp only
      rw [getAt_isSome_modifyAt_touchSet, errAtP_modifyAt_touchSet]
      by_cases hv : (r.getAt q).isSome
      · rw [if_pos hv, if_pos hv]
      · rw [if_neg hv, if_neg hv]
        by_cases hq : q = pa
        · subst hq
          rw [if_neg (fun hh => hv hh.2)]
        · rw [if_neg (fun hh => hq hh.1)]
    | none =>
      simp only
      rw [errAtP_modifyAt_touchSet]
      by_cases hq : pa = q
      · subst hq
        rw [if_pos rfl]
        show (if pa = pa ∧ (r.getAt pa).isSome = true then some mm
          else errAtP r pa) = if (r.getAt pa).isSome = true then some mm
          else errAtP r pa
        by_cases hv : (r.getAt pa).isSome
        · rw [if_pos ⟨rfl, hv⟩, if_pos hv]
        · rw [if_neg (fun hh => hv hh.2), if_neg hv]
      · have hqq : ¬ q = pa := fun hh => hq hh.symm
        rw [if_neg (fun hh => hqq hh.1), if_neg hq]

/-! Resolution paths point at existing controls. -/

theorem resolveSegs_getAt_isSome :
    ∀ (segs : List String) (t : Control) (p : Path),
    resolveSegs t segs = some p → (t.getAt p).isSome := by
  intro segs
  induction segs with
  | nil =>
    intro t p h
    rw [resolveSegs_nil] at h
    cases h
    rw [getAt_nil]
    rfl
  | cons s rest ih =>
    intro t p h
    cases t with
    | leaf e tch v => cases h
    | group cs e tch v =>
      rw [resolveSegs] at h
      cases halist : alistGet cs s with
      | none =>
        rw [halist] at h
        cases h
      | some c =>
        rw [halist] at h
        simp only [Option.map_eq_some'] at h
        obtain ⟨p', hp', hpp⟩ := h
        subst hpp
        rw [getAt_cons, getAt_one_group, halist, Option.some_bind]
        exact ih c p' hp'
    | coll xs e tch v =>
      rw [resolveSegs] at h
      cases hji : jsParseInt10 s with
      | none =>
        rw [hji] at h
        cases h
      | some j =>
        have h2 : (if j < 0 ∨ (xs.length : Int) ≤ j then none
            else match xs[j.toNat]? with
              | some c =>
                Option.map (fun p => Step.item j.toNat :: p) (resolveSegs c rest)
              | none => none) = some p := by
          rw [hji] at h
          exact h
        by_cases hb : j < 0 ∨ (xs.length : Int) ≤ j
        · rw [if_pos hb] at h2
          cases h2
        · rw [if_neg hb] at h2
          cases hx : xs[j.toNat]? with
          | none =>
            rw [hx] at h2
            cases h2
          | some c =>
            rw [hx] at h2
            simp only [Option.map_eq_some'] at h2
            obtain ⟨p', hp', hpp⟩ := h2
            subst hpp
            rw [getAt_cons, getAt_one_coll, hx, Option.some_bind]
            exact ih c p' hp'

theorem resolveControl_getAt_isSome (root : Control) (f : String) (p : Path)
    (h : resolveControl root f = some p) : (root.getAt p).isSome := by
  cases root with
  | leaf e tch v => cases h
  | coll xs e tch v => cases h
  | group cs e tch v =>
    rw [resolveControl] at h
    by_cases hl : (alistGet cs f).isSome
    · rw [if_pos hl] at h
      cases h
      rw [getAt_one_group]
      exact hl
    · rw [if_neg hl] at h
      exact resolveSegs_getAt_isSome (splitDot f) (.group cs e tch v) p h

/-! Accumulation-phase lemmas: one applyStep is exactly a staged update. -/

theorem applyStep_eq (cfg : BridgeCfg) (root : Control)
    (acc : Pending × List ResolvedFieldError) (fe : ApiFieldError) :
    applyStep cfg root acc fe =
      match stageOf cfg root fe with
      | none => acc
      | some st =>
        (alistSet acc.1 st.1 (alistSet ((alistGet acc.1 st.1).getD
            (baseFor cfg root st.1)) st.2.1 (ErrVal.strV st.2.2)),
          acc.2 ++ [⟨fe.field, st.2.1, st.2.2⟩]) := by
  rw [applyStep, stageOf]
  cases hr : resolveControl root fe.field with
  | none => rfl
  | some pa =>
    simp only
    rw [keptKeyOf, resolvedKeyOf]
    by_cases hskip : resolveErrorKey cfg.constraintMap fe.constraint = "" ∧
        ¬ cfg.catchAll
    · rw [if_pos hskip, if_pos hskip]
    · rw [if_neg hskip, if_neg hskip]
      simp only
      cases hga : alistGet acc.1 pa with
      | none => simp [baseFor]
      | some mm => simp

theorem buildPending_fst (cfg : BridgeCfg) (root : Control) :
    ∀ (errs : List ApiFieldError) (pend : Pending)
      (res : List ResolvedFieldError) (pa : Path),
    alistGet (errs.foldl (applyStep cfg root) (pend, res)).1 pa =
      if seqFor cfg root errs pa = [] then alistGet pend pa
      else some (replayPairs ((alistGet pend pa).getD (baseFor cfg root pa))
        (seqFor cfg root errs pa)) := by
  intro errs
  induction errs with
  | nil =>
    intro pend res pa
    simp [seqFor]
  | cons e rest ih =>
    intro pend res pa
    rw [List.foldl_cons, applyStep_eq]
    cases hst : stageOf cfg root e with
    | none =>
      have hseq : seqFor cfg root (e :: rest) pa = seqFor cfg root rest pa := by
        simp [seqFor, List.filterMap_cons, hst]
      rw [hseq]
      exact ih pend res pa
    | some st =>
      obtain ⟨p0, k0, msg0⟩ := st
      by_cases hpa : p0 = pa
      · subst hpa
        have hseq : seqFor cfg root (e :: rest) p0 =
            (k0, ErrVal.strV msg0) :: seqFor cfg root rest p0 := by
          simp [seqFor, List.filterMap_cons, hst]
        rw [hseq]
        simp only
        rw [ih]
        have hget : alistGet (alistSet pend p0
            (alistSet ((alistGet pend p0).getD (baseFor cfg root p0)) k0
              (ErrVal.strV msg0))) p0 =
            some (alistSet ((alistGet pend p0).getD (baseFor cfg root p0)) k0
              (ErrVal.strV msg0)) := by
          rw [alistGet_alistSet, if_pos rfl]
        by_cases hrest : seqFor cfg root rest p0 = []
        · rw [if_pos hrest, if_neg (by simp), hget, hrest]
          rfl
        · rw [if_neg hrest, if_neg (by simp), hget]
          rfl
      · have hseq : seqFor cfg root (e :: rest) pa = seqFor cfg root rest pa := by
          simp [seqFor, List.filterMap_cons, hst, hpa]
        rw [hseq]
        simp only
        rw [ih]
        have hget : alistGet (alistSet pend p0
            (alistSet ((alistGet pend p0).getD (baseFor cfg root p0)) k0
              (ErrVal.strV msg0))) pa = alistGet pend pa := by
          rw [alistGet_alistSet, if_neg (fun hh => hpa hh.symm)]
        rw [hget]

theorem buildPending_snd (cfg : BridgeCfg) (root : Control) :
    ∀ (errs : List ApiFieldError) (pend : Pending)
      (res : List ResolvedFieldError),
    (errs.foldl (applyStep cfg root) (pend, res)).2 =
      res ++ errs.filterMap (fun e => (stageOf cfg root e).map
        (fun st => (⟨e.field, st.2.1, st.2.2⟩ : ResolvedFieldError))) := by
  intro errs
  induction errs with
  | nil =>
    intro pend res
    simp
  | cons e rest ih =>
    intro pend res
    rw [List.foldl_cons, applyStep_eq]
    cases hst : stageOf cfg root e with
    | none =>
      simp only [List.filterMap_cons, hst]
      exact ih pend res
    | some st =>
      simp only [List.filterMap_cons, hst, Option.map_some']
      rw [ih]
      simp

theorem buildPending_nodup (cfg : BridgeCfg) (root : Control) :
    ∀ (errs : List ApiFieldError) (pend : Pending)
      (res : List ResolvedFieldError),
    (keysOf pend).Nodup →
    (keysOf (errs.foldl (applyStep cfg root) (pend, res)).1).Nodup := by
  intro errs
  induction errs with
  | nil =>
    intro pend res h
    exact h
  | cons e rest ih =>
    intro pend res h
    rw [List.foldl_cons, applyStep_eq]
    cases hst : stageOf cfg root e with
    | none => exact ih pend res h
    | some st =>
      exact ih _ _ (nodup_keys_alistSet _ _ h)

theorem stageOf_commitPending (cfg : BridgeCfg) (pend : Pending) (r : Control)
    (e : ApiFieldError) :
    stageOf cfg (commitPending r pend) e = stageOf cfg r e := by
  rw [stageOf, stageOf, resolveControl_commitPending]

theorem seqFor_commitPending (cfg : BridgeCfg) (pend : Pending) (r : Control)
    (errs : List ApiFieldError) (pa : Path) :
    seqFor cfg (commitPending r pend) errs pa = seqFor cfg r errs pa := by
  rw [seqFor, seqFor]
  congr 1
  funext e
  rw [stageOf_commitPending]

theorem alistGet_map_snd (cs : List (String × Control))
    (g : Control → Control) (n : String) :
    alistGet (cs.map (fun q => (q.1, g q.2))) n = (alistGet cs n).map g := by
  induction cs with
  | nil => rfl
  | cons a rest ih =>
    obtain ⟨a1, c⟩ := a
    by_cases ha : a1 = n
    · simp [alistGet, ha]
    · simp only [List.map_cons, alistGet, if_neg ha]
      exact ih

theorem clearControl_errors (c : Control) :
    (clearControl c).errors = c.validator := by
  cases c <;> rfl

theorem clearControl_getAt_cons (c : Control) (s : Step) (p : Path) :
    (clearControl c).getAt (s :: p) = c.getAt (s :: p) := by
  cases c <;> cases s <;> rfl

theorem seqFor_ne_nil_isSome (cfg : BridgeCfg) (r : Control)
    (errs : List ApiFieldError) (q : Path)
    (h : seqFor cfg r errs q ≠ []) : (r.getAt q).isSome := by
  rw [seqFor] at h
  have hex : ∃ e ∈ errs, (match stageOf cfg r e with
      | some st => if st.1 = q then some (st.2.1, ErrVal.strV st.2.2) else none
      | none => none) ≠ none := by
    by_contra hall
    push_neg at hall
    exact h (List.filterMap_eq_nil_iff.mpr hall)
  obtain ⟨e, hmem, hne⟩ := hex
  cases hst : stageOf cfg r e with
  | none =>
    rw [hst] at hne
    exact absurd rfl hne
  | some st =>
    rw [hst] at hne
    simp only at hne
    by_cases hq : st.1 = q
    · have hrc : resolveControl r e.field = some st.1 := by
        rw [stageOf] at hst
        cases hr2 : resolveControl r e.field with
        | none =>
          rw [hr2] at hst
          cases hst
        | some pa =>
          rw [hr2] at hst
          simp only at hst
          cases hk : keptKeyOf cfg e with
          | none =>
            rw [hk] at hst
            cases hst
          | some k =>
            rw [hk] at hst
            cases hst
            rfl
      rw [← hq]
      exact resolveControl_getAt_isSome r e.field st.1 hrc
    · rw [if_neg hq] at hne
      exact absurd rfl hne

/-- The error map visible at a path after one _applyErrors run: untouched
when no error was staged there, otherwise exactly the staged updates
replayed over the merge base. -/
theorem errAtP_applyErrs (cfg : BridgeCfg) (r : Control)
    (errs : List ApiFieldError) (q : Path) :
    errAtP (applyErrs cfg r errs).1 q =
      if seqFor cfg r errs q = [] then errAtP r q
      else some (replayPairs (baseFor cfg r q) (seqFor cfg r errs q)) := by
  show errAtP (commitPending r (buildPending cfg r errs).1) q = _
  rw [errAtP_commitPending]
  have hnodup : (keysOf (buildPending cfg r errs).1).Nodup :=
    buildPending_nodup cfg r errs [] [] (by simp [keysOf])
  have hlast := lastGet_eq_alistGet hnodup q
  rw [hlast]
  have hfst : alistGet (buildPending cfg r errs).1 q =
      if seqFor cfg r errs q = [] then alistGet ([] : Pending) q
      else some (replayPairs ((alistGet ([] : Pending) q).getD
        (baseFor cfg r q)) (seqFor cfg r errs q)) :=
    buildPending_fst cfg r errs [] [] q
  rw [hfst]
  by_cases hS : seqFor cfg r errs q = []
  · rw [if_pos hS, if_pos hS]
    rfl
  · rw [if_neg hS, if_neg hS]
    have hv : (r.getAt q).isSome := seqFor_ne_nil_isSome cfg r errs q hS
    show (if (r.getAt q).isSome = true then _ else _) = _
    rw [if_pos hv]
    rfl

/-- C9: applying the same FieldError list twice in a row, under any
configuration (so in both merge and replace mode), yields the same
resolved output list both times, preserves the shape of the tree, and
yields the same error set on every path (same presence and the same value
under every key) after the second apply as after the first. -/
theorem c9_repeat_apply_idempotent (cfg : BridgeCfg) (root : Control)
    (errs : List ApiFieldError) :
    (applyErrs cfg (applyErrs cfg root errs).1 errs).2 =
        (applyErrs cfg root errs).2 ∧
      (∀ q : Path,
        ((applyErrs cfg (applyErrs cfg root errs).1 errs).1.getAt q).isSome =
          ((applyErrs cfg root errs).1.getAt q).isSome) ∧
      (∀ q : Path,
        (errAtP (applyErrs cfg (applyErrs cfg root errs).1 errs).1 q).isSome =
          (errAtP (applyErrs cfg root errs).1 q).isSome) ∧
      (∀ (q : Path) (k : String),
        (errAtP (applyErrs cfg (applyErrs cfg root errs).1 errs).1 q).bind
            (fun mm => alistGet mm k) =
          (errAtP (applyErrs cfg root errs).1 q).bind
            (fun mm => alistGet mm k)) := by
  have hseq : ∀ (pa : Path),
      seqFor cfg ((applyErrs cfg root errs).1) errs pa =
        seqFor cfg root errs pa :=
    fun pa => seqFor_commitPending cfg (buildPending cfg root errs).1 root
      errs pa
  refine ⟨?_, ?_, ?_, ?_⟩
  · show (buildPending cfg ((applyErrs cfg root errs).1) errs).2 =
      (buildPending cfg root errs).2
    have ha := buildPending_snd cfg ((applyErrs cfg root errs).1) errs [] []
    have hb := buildPending_snd cfg root errs [] []
    rw [show (buildPending cfg ((applyErrs cfg root errs).1) errs).2 =
        ([] : List ResolvedFieldError) ++ errs.filterMap
          (fun e => (stageOf cfg ((applyErrs cfg root errs).1) e).map
            (fun st => (⟨e.field, st.2.1, st.2.2⟩ : ResolvedFieldError)))
      from ha,
      show (buildPending cfg root errs).2 =
        ([] : List ResolvedFieldError) ++ errs.filterMap
          (fun e => (stageOf cfg root e).map
            (fun st => (⟨e.field, st.2.1, st.2.2⟩ : ResolvedFieldError)))
      from hb]
    simp only [List.nil_append]
    congr 1
    funext e
    rw [show stageOf cfg ((applyErrs cfg root errs).1) e = stageOf cfg root e
      from stageOf_commitPending cfg (buildPending cfg root errs).1 root e]
  · intro q
    show ((commitPending ((applyErrs cfg root errs).1)
        (buildPending cfg ((applyErrs cfg root errs).1) errs).1).getAt
          q).isSome = _
    rw [getAt_isSome_commitPending]
  · intro q
    rw [errAtP_applyErrs, errAtP_applyErrs, hseq]
    by_cases hS : seqFor cfg root errs q = []
    · rw [if_pos hS, if_pos hS]
    · rw [if_neg hS, if_neg hS]
      rfl
  · intro q k
    rw [errAtP_applyErrs, errAtP_applyErrs, hseq]
    by_cases hS : seqFor cfg root errs q = []
    · rw [if_pos hS, if_pos hS]
    · rw [if_neg hS, if_neg hS, Option.some_bind, Option.some_bind,
        alistGet_replayPairs, alistGet_replayPairs]
      cases hlk : lastGet (seqFor cfg root errs q) k with
      | some v => rfl
      | none =>
        simp only
        by_cases hm : cfg.mergeErrors
        · rw [baseFor, baseFor, if_pos hm, if_pos hm]
          have he1 : errAtP ((applyErrs cfg root errs).1) q =
              some (replayPairs (baseFor cfg root q)
                (seqFor cfg root errs q)) := by
            rw [errAtP_applyErrs, if_neg hS]
          rw [he1, Option.getD_some, alistGet_replayPairs, hlk]
          show alistGet (baseFor cfg root q) k = alistGet ((errAtP root q).getD []) k
          rw [baseFor, if_pos hm]
        · rw [baseFor, baseFor, if_neg hm, if_neg hm]

/-- With no interceptors configured, the resolved output of applyApiErrors
is the resolved output of _applyErrors on the parsed field errors. -/
theorem applyApiErrors_snd (cfg : BridgeCfg) (presets : List ErrorPreset)
    (st : BridgeState) (payload : JsValue) :
    (applyApiErrors cfg presets [] st payload).2 =
      (applyErrs cfg st.root (tryPresets presets payload)).2 := rfl

/-! Claim theorems. -/

/-- C1: the claim says a FieldError whose field path resolves to no control
is appended to a globals list as (message, constraint, originalField) and
never silently dropped. In the code, _applyErrors has no global bucket at
all: the unmatched error is skipped with continue (after an optional debug
warning), the form is left untouched and the resolved output is empty, so
apply([(ghost, required, m)], tree) with no ghost child yields no record of
the error anywhere. This evaluates the embedded _applyErrors at exactly
that failing input. -/
theorem c1_unmatched_field_error_silently_dropped :
    resolveControl formEmailName "ghost" = none ∧
    applyErrs defaultCfg formEmailName [⟨"ghost", "required", "m"⟩] =
      (formEmailName, []) :=
  ⟨by decide, rfl⟩

/-- C2 counterexample: a leaf with the independently-set error
(customError: true) does not keep it through apply-then-clear; after
clearApiErrors the leaf's error set is null (its validators produce
nothing), not the claimed (customError: true). -/
theorem c2_counterexample :
    errAtP (clearApiErrors ⟨(applyErrs defaultCfg customErrorForm
        [⟨"name", "isNotEmpty", "name should not be empty"⟩]).1, []⟩).root
      [Step.child "name"] = none ∧
    (none : Option ErrMap) ≠ some [("customError", ErrVal.boolV true)] := by
  constructor
  · decide
  · decide

/-- C2 amended: in both merge and replace mode, apply-then-clear loses the
independently-set error: clearApiErrors wipes each direct child's error
state wholesale (setErrors(null) + updateValueAndValidity), so the leaf
ends with whatever its validators produce (null here), and the observable
error list is reset. There is no provenance tracking that would remove
only the pipeline's own keys. -/
theorem c2_clear_discards_independent_error : ∀ (catchFlag mergeFlag : Bool),
    errAtP (clearApiErrors ⟨(applyErrs ⟨catchFlag, mergeFlag, [], none⟩
        customErrorForm [⟨"name", "required", "m"⟩]).1, []⟩).root
      [Step.child "name"] = none ∧
    (clearApiErrors ⟨(applyErrs ⟨catchFlag, mergeFlag, [], none⟩
        customErrorForm [⟨"name", "required", "m"⟩]).1, []⟩).apiErrors = [] := by
  decide

/-- C3 counterexample: two FieldErrors resolving to the same leaf and the
same canonical key are not suffixed; the resolved output repeats the same
key twice and the leaf's committed error map holds only the second
message, so the first display message is not retrievable. -/
theorem c3_counterexample :
    (applyErrs ⟨false, false, [], none⟩ formEmailName
        [⟨"email", "dup", "m1"⟩, ⟨"email", "dup", "m2"⟩]).2 =
      [⟨"email", "dup", "m1"⟩, ⟨"email", "dup", "m2"⟩] ∧
    errAtP (applyErrs ⟨false, false, [], none⟩ formEmailName
        [⟨"email", "dup", "m1"⟩, ⟨"email", "dup", "m2"⟩]).1
      [Step.child "email"] = some [("dup", ErrVal.strV "m2")] := by
  constructor
  · decide
  · decide

/-- C3 amended: when two FieldErrors resolve to the same control and the
same final key within one apply call, both still produce ResolvedFieldError
entries (with the same, unsuffixed key), but in the control's error set the
second overwrites the first (last-write-wins), so only the second message
is retrievable from the leaf. -/
theorem c3_same_key_last_write_wins (cfg : BridgeCfg) (root : Control)
    (e1 e2 : ApiFieldError) (pa : Path) (k : String)
    (h1 : resolveControl root e1.field = some pa)
    (h2 : resolveControl root e2.field = some pa)
    (hk1 : keptKeyOf cfg e1 = some k)
    (hk2 : keptKeyOf cfg e2 = some k) :
    (applyErrs cfg root [e1, e2]).2 =
      [⟨e1.field, k, resolveMessage cfg.i18n e1⟩,
        ⟨e2.field, k, resolveMessage cfg.i18n e2⟩] ∧
    (errAtP (applyErrs cfg root [e1, e2]).1 pa).bind
        (fun mm => alistGet mm k) =
      some (ErrVal.strV (resolveMessage cfg.i18n e2)) := by
  have hst1 : stageOf cfg root e1 = some (pa, k, resolveMessage cfg.i18n e1) := by
    simp [stageOf, h1, hk1]
  have hst2 : stageOf cfg root e2 = some (pa, k, resolveMessage cfg.i18n e2) := by
    simp [stageOf, h2, hk2]
  constructor
  · show (buildPending cfg root [e1, e2]).2 = _
    rw [show (buildPending cfg root [e1, e2]).2 =
        ([] : List ResolvedFieldError) ++ [e1, e2].filterMap
          (fun e => (stageOf cfg root e).map
            (fun st => (⟨e.field, st.2.1, st.2.2⟩ : ResolvedFieldError)))
      from buildPending_snd cfg root [e1, e2] [] []]
    simp [List.filterMap_cons, hst1, hst2]
  · rw [errAtP_applyErrs]
    have hseq : seqFor cfg root [e1, e2] pa =
        [(k, ErrVal.strV (resolveMessage cfg.i18n e1)),
          (k, ErrVal.strV (resolveMessage cfg.i18n e2))] := by
      simp [seqFor, List.filterMap_cons, hst1, hst2]
    rw [hseq, if_neg (by simp), Option.some_bind, alistGet_replayPairs]
    simp [lastGet]

/-- Witness for C3 amended at a concrete input. -/
theorem c3_witness :
    (applyErrs ⟨false, false, [], none⟩ formEmailName
        [⟨"email", "dup", "m1"⟩, ⟨"email", "dup", "m2"⟩]).2 =
      [⟨"email", "dup", "m1"⟩, ⟨"email", "dup", "m2"⟩] ∧
    (errAtP (applyErrs ⟨false, false, [], none⟩ formEmailName
        [⟨"email", "dup", "m1"⟩, ⟨"email", "dup", "m2"⟩]).1
      [Step.child "email"]).bind (fun mm => alistGet mm "dup") =
      some (ErrVal.strV "m2") :=
  c3_same_key_last_write_wins ⟨false, false, [], none⟩ formEmailName
    ⟨"email", "dup", "m1"⟩ ⟨"email", "dup", "m2"⟩ [Step.child "email"] "dup"
    (by decide) (by decide) (by decide) (by decide)

/-- C4: the merged constraint map never consults a configured preset's own
constraintMap property. _resolvePresetConstraintMap only looks the preset
name up in the hardcoded four-entry registry and falls back to the
class-validator map when nothing matched, so a third-party ErrorPreset
carrying constraintMap (foo, bar) has no effect: foo stays unmapped and
passes through unchanged. (The preset-order merge and the caller-override
precedence of the claim do hold for the built-in names, as the last
conjunct shows for a caller override.) This contradicts the models
documentation of ErrorPreset.constraintMap, which promises the map is
merged automatically. -/
theorem c4_preset_constraint_map_ignored :
    thirdPartyPreset.constraintMap = some [("foo", "bar")] ∧
    mkConstraintMap [thirdPartyPreset] none =
      objAssign [] CLASS_VALIDATOR_CONSTRAINT_MAP ∧
    alistGet (mkConstraintMap [thirdPartyPreset] none) "foo" = none ∧
    resolveErrorKey (mkConstraintMap [thirdPartyPreset] none) "foo" = "foo" ∧
    resolveErrorKey (mkConstraintMap [classValidatorPreset]
      (some [("isEmail", "custom")])) "isEmail" = "custom" := by
  refine ⟨rfl, by decide, by decide, by decide, by decide⟩

/-- C5 counterexample: the claimed payload wraps the field errors in an
errors key, which the class-validator preset does not recognize (it
accepts the message envelope, a bare string message, or a direct array),
so parsing yields nothing and the resolved output is empty, not the
claimed two-entry list. -/
theorem c5_counterexample :
    classValidatorParse payloadScenarioA = [] ∧
    (applyApiErrors defaultCfg [classValidatorPreset] [] ⟨formEmailName, []⟩
      payloadScenarioA).2 = [] ∧
    ([] : List ResolvedFieldError) ≠
      [⟨"email", "email", "email must be an email"⟩,
        ⟨"name", "required", "name should not be empty"⟩] := by
  refine ⟨by decide, by decide, by decide⟩

/-- C5 amended: with the field errors under the message key (the NestJS
ValidationPipe envelope the preset actually parses), the default preset
and default constraint map produce exactly the claimed resolved list. -/
theorem c5_message_envelope_scenario :
    (applyApiErrors defaultCfg [classValidatorPreset] [] ⟨formEmailName, []⟩
      payloadScenarioAMessage).2 =
      [⟨"email", "email", "email must be an email"⟩,
        ⟨"name", "required", "name should not be empty"⟩] := by
  have hparse : tryPresets [classValidatorPreset] payloadScenarioAMessage =
      [⟨"email", "isEmail", "email must be an email"⟩,
        ⟨"name", "isNotEmpty", "name should not be empty"⟩] := by
    simp [tryPresets, classValidatorPreset, classValidatorParse,
      payloadScenarioAMessage, jsTruthy, jsTypeofObject, jsGet, alistGet,
      jsHasProp, flattenErrors, jsEntries, jsCoerceStr]
  rw [applyApiErrors_snd, hparse]
  decide

/-- C6: the facade tries each preset in order and keeps the first non-empty
parse result: with presets (A, B) where A parses to nothing, the selected
field errors are exactly B's, the standalone parseApiErrors agrees, and
applyApiErrors behaves as if only B were configured, so B's non-empty
result is never discarded. -/
theorem c6_first_nonempty_preset_wins (A B : ErrorPreset) (payload : JsValue)
    (h : A.parse payload = []) :
    tryPresets [A, B] payload = B.parse payload ∧
    parseApiErrors payload (some [A, B]) = B.parse payload ∧
    ∀ (cfg : BridgeCfg) (st : BridgeState),
      applyApiErrors cfg [A, B] [] st payload =
        applyApiErrors cfg [B] [] st payload := by
  have ht2 : tryPresets [B] payload = B.parse payload := by
    rw [tryPresets]
    cases hb : B.parse payload with
    | nil => rfl
    | cons x xs => rfl
  have ht : tryPresets [A, B] payload = B.parse payload := by
    rw [tryPresets, h]
    exact ht2
  refine ⟨ht, ht, ?_⟩
  intro cfg st
  have hx : applyApiErrors cfg [A, B] [] st payload =
      (⟨(applyErrs cfg st.root (tryPresets [A, B] payload)).1,
        (applyErrs cfg st.root (tryPresets [A, B] payload)).2⟩,
        (applyErrs cfg st.root (tryPresets [A, B] payload)).2) := rfl
  have hy : applyApiErrors cfg [B] [] st payload =
      (⟨(applyErrs cfg st.root (tryPresets [B] payload)).1,
        (applyErrs cfg st.root (tryPresets [B] payload)).2⟩,
        (applyErrs cfg st.root (tryPresets [B] payload)).2) := rfl
  rw [hx, hy, ht, ht2]

/-- Witness for C6 at a concrete input. -/
theorem c6_witness :
    tryPresets [⟨"A", fun _ => [], none⟩,
      ⟨"B", fun _ => [⟨"email", "required", "m"⟩], none⟩] JsValue.null =
      [⟨"email", "required", "m"⟩] :=
  (c6_first_nonempty_preset_wins ⟨"A", fun _ => [], none⟩
    ⟨"B", fun _ => [⟨"email", "required", "m"⟩], none⟩ JsValue.null rfl).1

/-- C7 counterexample: a non-numeric index segment against a form array is
not always rejected: parseInt accepts a numeric prefix, so the segment
2abc resolves to element 2 of the array instead of returning null. -/
theorem c7_counterexample :
    jsParseInt10 "2abc" = some 2 ∧
    resolveControl itemsTree "items.2abc" =
      some [Step.child "items", Step.item 2] ∧
    resolveControl itemsTree "items.2abc" ≠ none := by
  refine ⟨by decide, by decide, by decide⟩

/-- C7 amended: the path resolver is a pure total function that returns
null (none) on any further segment past a leaf, a group child miss, an
array segment with no parseable leading integer (parseInt NaN), and a
negative or out-of-range index; at a group it descends by child name, at
an array by the parseInt index (so a segment like 2abc is treated as
index 2); and any path it returns points at an existing control. -/
theorem c7_resolver_null_characterization :
    (∀ (e : Option ErrMap) (tch : Bool) (v : Option ErrMap) (s : String)
      (rest : List String),
      resolveSegs (Control.leaf e tch v) (s :: rest) = none) ∧
    (∀ (cs : List (String × Control)) (e : Option ErrMap) (tch : Bool)
      (v : Option ErrMap) (s : String) (rest : List String),
      alistGet cs s = none →
      resolveSegs (Control.group cs e tch v) (s :: rest) = none) ∧
    (∀ (cs : List (String × Control)) (e : Option ErrMap) (tch : Bool)
      (v : Option ErrMap) (s : String) (rest : List String) (c : Control),
      alistGet cs s = some c →
      resolveSegs (Control.group cs e tch v) (s :: rest) =
        (resolveSegs c rest).map (fun p => Step.child s :: p)) ∧
    (∀ (xs : List Control) (e : Option ErrMap) (tch : Bool)
      (v : Option ErrMap) (s : String) (rest : List String),
      jsParseInt10 s = none →
      resolveSegs (Control.coll xs e tch v) (s :: rest) = none) ∧
    (∀ (xs : List Control) (e : Option ErrMap) (tch : Bool)
      (v : Option ErrMap) (s : String) (rest : List String) (i : Int),
      jsParseInt10 s = some i → (i < 0 ∨ (xs.length : Int) ≤ i) →
      resolveSegs (Control.coll xs e tch v) (s :: rest) = none) ∧
    (∀ (xs : List Control) (e : Option ErrMap) (tch : Bool)
      (v : Option ErrMap) (s : String) (rest : List String) (i : Int)
      (c : Control),
      jsParseInt10 s = some i → ¬ (i < 0 ∨ (xs.length : Int) ≤ i) →
      xs[i.toNat]? = some c →
      resolveSegs (Control.coll xs e tch v) (s :: rest) =
        (resolveSegs c rest).map (fun p => Step.item i.toNat :: p)) ∧
    (∀ (root : Control) (f : String) (p : Path),
      resolveControl root f = some p → (root.getAt p).isSome) := by
  refine ⟨?_, ?_, ?_, ?_, ?_, ?_, ?_⟩
  · intro e tch v s rest
    rfl
  · intro cs e tch v s rest h
    rw [resolveSegs, h]
  · intro cs e tch v s rest c h
    rw [resolveSegs, h]
  · intro xs e tch v s rest h
    rw [resolveSegs, h]
  · intro xs e tch v s rest i h hb
    rw [resolveSegs, h]
    show (if i < 0 ∨ (xs.length : Int) ≤ i then none
      else match xs[i.toNat]? with
        | some c => (resolveSegs c rest).map (fun p => Step.item i.toNat :: p)
        | none => none) = none
    rw [if_pos hb]
  · intro xs e tch v s rest i c h hb hc
    rw [resolveSegs, h]
    show (if i < 0 ∨ (xs.length : Int) ≤ i then none
      else match xs[i.toNat]? with
        | some c2 => (resolveSegs c2 rest).map (fun p => Step.item i.toNat :: p)
        | none => none) =
      (resolveSegs c rest).map (fun p => Step.item i.toNat :: p)
    rw [if_neg hb, hc]
  · intro root f p h
    exact resolveControl_getAt_isSome root f p h

/-- Witness for C7 amended at a concrete input. -/
theorem c7_witness :
    resolveSegs (Control.coll [Control.leaf none false none] none false none)
      ["x"] = none :=
  (c7_resolver_null_characterization).2.2.2.1 [Control.leaf none false none]
    none false none "x" [] (by decide)

/-- C8: constraint resolution returns the mapped value as-is (even the
empty string) and passes unmapped constraints through; during apply, an
error whose resolved key is empty is skipped entirely when catch-all mode
is off (dropping it from the input changes nothing), and with catch-all
mode on it is applied under the generic key. -/
theorem c8_empty_key_skip_or_generic :
    (∀ (m : List (String × String)) (c v : String),
      alistGet m c = some v → resolveErrorKey m c = v) ∧
    (∀ (m : List (String × String)) (c : String),
      alistGet m c = none → resolveErrorKey m c = c) ∧
    (∀ (cfg : BridgeCfg) (root : Control) (errs : List ApiFieldError),
      cfg.catchAll = false →
      applyErrs cfg root errs = applyErrs cfg root
        (errs.filter (fun e => !(resolvedKeyOf cfg e == "")))) ∧
    (∀ (cfg : BridgeCfg) (root : Control) (e : ApiFieldError) (pa : Path),
      cfg.catchAll = true → resolvedKeyOf cfg e = "" →
      resolveControl root e.field = some pa →
      (applyErrs cfg root [e]).2 =
        [⟨e.field, "generic", resolveMessage cfg.i18n e⟩] ∧
      (errAtP (applyErrs cfg root [e]).1 pa).bind
          (fun mm => alistGet mm "generic") =
        some (ErrVal.strV (resolveMessage cfg.i18n e))) := by
  refine ⟨?_, ?_, ?_, ?_⟩
  · intro m c v h
    rw [resolveErrorKey, h]
  · intro m c h
    rw [resolveErrorKey, h]
  · intro cfg root errs hca
    have haux : ∀ (l : List ApiFieldError)
        (acc : Pending × List ResolvedFieldError),
        l.foldl (applyStep cfg root) acc =
          (l.filter (fun e => !(resolvedKeyOf cfg e == ""))).foldl
            (applyStep cfg root) acc := by
      intro l
      induction l with
      | nil =>
        intro acc
        rfl
      | cons e rest ihl =>
        intro acc
        by_cases hk : resolvedKeyOf cfg e = ""
        · have hstep : applyStep cfg root acc e = acc := by
            rw [applyStep]
            cases hr : resolveControl root e.field with
            | none => rfl
            | some pa =>
              have h1 : resolveErrorKey cfg.constraintMap e.constraint = "" :=
                hk
              simp [h1, hca]
          rw [List.foldl_cons, hstep, List.filter_cons,
            if_neg (by simp [hk]), ihl acc]
        · rw [List.foldl_cons, List.filter_cons, if_pos (by simp [hk]),
            List.foldl_cons]
          exact ihl _
    have hb2 : buildPending cfg root errs = buildPending cfg root
        (errs.filter (fun e => !(resolvedKeyOf cfg e == ""))) :=
      haux errs ([], [])
    show (commitPending root (buildPending cfg root errs).1,
        (buildPending cfg root errs).2) =
      (commitPending root (buildPending cfg root
          (errs.filter (fun e => !(resolvedKeyOf cfg e == "")))).1,
        (buildPending cfg root
          (errs.filter (fun e => !(resolvedKeyOf cfg e == "")))).2)
    rw [hb2]
  · intro cfg root e pa hca hk hr
    have hst : stageOf cfg root e =
        some (pa, "generic", resolveMessage cfg.i18n e) := by
      have h1 : resolveErrorKey cfg.constraintMap e.constraint = "" := hk
      simp [stageOf, hr, keptKeyOf, resolvedKeyOf, h1, hca]
    constructor
    · show (buildPending cfg root [e]).2 = _
      rw [show (buildPending cfg root [e]).2 =
          ([] : List ResolvedFieldError) ++ [e].filterMap
            (fun e2 => (stageOf cfg root e2).map
              (fun st => (⟨e2.field, st.2.1, st.2.2⟩ : ResolvedFieldError)))
        from buildPending_snd cfg root [e] [] []]
      simp [List.filterMap_cons, hst]
    · rw [errAtP_applyErrs]
      have hseq : seqFor cfg root [e] pa =
          [("generic", ErrVal.strV (resolveMessage cfg.i18n e))] := by
        simp [seqFor, List.filterMap_cons, hst]
      rw [hseq, if_neg (by simp), Option.some_bind]
      show alistGet (alistSet (baseFor cfg root pa) "generic"
        (ErrVal.strV (resolveMessage cfg.i18n e))) "generic" = _
      rw [alistGet_alistSet, if_pos rfl]

/-- Witness for C8 at a concrete input: a constraint mapped to the empty
string with catch-all on lands under the generic key. -/
theorem c8_witness :
    (applyErrs ⟨true, false, [("x", "")], none⟩ formEmailName
        [⟨"email", "x", "m"⟩]).2 = [⟨"email", "generic", "m"⟩] ∧
    (errAtP (applyErrs ⟨true, false, [("x", "")], none⟩ formEmailName
        [⟨"email", "x", "m"⟩]).1 [Step.child "email"]).bind
      (fun mm => alistGet mm "generic") = some (ErrVal.strV "m") :=
  (c8_empty_key_skip_or_generic).2.2.2 ⟨true, false, [("x", "")], none⟩
    formEmailName ⟨"email", "x", "m"⟩ [Step.child "email"] rfl (by decide)
    (by decide)

/-- C10: clearApiErrors touches only the root group's direct children: the
observable error list is emptied, but every control at depth two or more
keeps its errors unchanged — in particular an API error applied through
the dot path address.city to a nested control survives a subsequent
clearApiErrors. -/
theorem c10_clear_resets_only_direct_children :
    (∀ (st : BridgeState), (clearApiErrors st).apiErrors = []) ∧
    (∀ (cs : List (String × Control)) (e : Option ErrMap) (tch : Bool)
      (v : Option ErrMap) (res : List ResolvedFieldError) (s s2 : Step)
      (p : Path),
      errAtP (clearApiErrors ⟨Control.group cs e tch v, res⟩).root
          (s :: s2 :: p) =
        errAtP (Control.group cs e tch v) (s :: s2 :: p)) ∧
    errAtP (clearApiErrors ⟨(applyErrs defaultCfg addressTree
        [⟨"address.city", "required", "m"⟩]).1, []⟩).root
      [Step.child "address", Step.child "city"] =
      some [("required", ErrVal.strV "m")] := by
  refine ⟨?_, ?_, ?_⟩
  · intro st
    obtain ⟨r, res⟩ := st
    cases r <;> rfl
  · intro cs e tch v res s s2 p
    cases s with
    | item i => rfl
    | child n =>
      show ((Control.group (cs.map (fun q => (q.1, clearControl q.2)))
          v tch v).getAt (Step.child n :: s2 :: p)).bind Control.errors =
        ((Control.group cs e tch v).getAt
          (Step.child n :: s2 :: p)).bind Control.errors
      rw [Control.getAt, Control.getAt, alistGet_map_snd]
      cases hc : alistGet cs n with
      | none => rfl
      | some c =>
        show ((clearControl c).getAt (s2 :: p)).bind Control.errors =
          (c.getAt (s2 :: p)).bind Control.errors
        rw [clearControl_getAt_cons]
  · decide

end NgxApiForms
